import Mathlib

/-!
Verification development for the concurrent Patricia (radix) trie declared in
`src/terark/fsa/cspptrie.hpp`.  The repository ships only the header; where a
claim depends on code whose body is not in the repository (the insert/lookup
implementations, the token registry and the lazy-free reclamation machinery),
the corresponding definition below is modelled from the specification
(`spec.md`) and carries a doc comment saying exactly what is modelled.
Definitions whose C++ source is present in the header (the `value_of`
assertions, `TokenDeleter`, `TokenFlags`, the `create` factory defaults, the
`ConcurrentLevel` enum) are translated from that source directly.
-/

namespace Terark

/-- Bytes of a key: the trie maps byte-string keys (unsigned byte comparison). -/
abbrev Byte := Fin 256

/-- Keys are arbitrary byte strings, including the empty string. -/
abbrev Key := List Byte

/-- Value payloads are byte strings (a value slot holds `value_size` bytes). -/
abbrev Val := List Byte

/-- Radix-tree node.  Modelled from the spec: section 3 "Node" — a node has a
compressed label of 0+ bytes, a terminal flag with a value slot (represented
as `Option Val`: `some` = terminal with the slot's bytes), and a sparse child
map from a branching byte to a child node.  The implementation file
(`cspptrie.inl` / `cspptrie.cpp`) is not in the repository. -/
inductive Node : Type where
  | mk (label : List Byte) (val : Option Val) (children : List (Byte × Node))

/-- Child-map search: returns the child reached over byte `b`, first match. -/
def findChild (b : Byte) : List (Byte × Node) → Option Node
  | [] => none
  | (b0, c) :: rest => if b = b0 then some c else findChild b rest

/-- Child-map update: replace the entry for byte `b`, or append it when the
byte has no entry yet (the spec's add-state-move publishes a new entry). -/
def setChild (b : Byte) (x : Node) : List (Byte × Node) → List (Byte × Node)
  | [] => [(b, x)]
  | (b0, c) :: rest => if b = b0 then (b, x) :: rest else (b0, c) :: setChild b x rest

/-- Label-matching walk of a node body.  Modelled from the spec: section 4.C
"lookup(key, token): walks the trie matching labels; on match-to-terminal
[returns the slot]; on any mismatch or premature terminal [returns nothing]".
Arguments are the current node's remaining label, its terminal slot and its
child map; the walk consumes the label byte-by-byte against the key and
descends over a child edge when the label is exhausted. -/
def findAux : List Byte → Option Val → List (Byte × Node) → Key → Option Val
  | [], val, _, [] => val
  | [], _, ch, b :: rest =>
    match findChild b ch with
    | some (.mk l v c) => findAux l v c rest
    | none => none
  | _ :: _, _, _, [] => none
  | lb :: lt, val, ch, kb :: kt =>
    if kb = lb then findAux lt val ch kt else none

/-- Walk of a whole node: `find n key` is the value slot of the terminal whose
path spells `key`, or `none` on mismatch or premature terminal. -/
def Node.find (n : Node) (key : Key) : Option Val :=
  match n with
  | .mk l v c => findAux l v c key

/-- Prepend a byte to a node's compressed label (used when the insert walk has
consumed a matching label byte and rebuilds the node on the way out). -/
def consLabel (b : Byte) : Node → Node
  | .mk l v c => .mk (b :: l) v c

/-- Structural insert of `key` with value `v` into a node body.  Modelled from
the spec: section 4.C insert — the walk matches labels exactly like lookup and
on divergence chooses one of the three structural mutations:
fork / mark-final (key exhausted at the node: allocate the value slot and set
the terminal bit), add-state-move (divergence at the child-map boundary:
install a new child leaf), split (divergence inside a compressed label:
build a branch node at the divergence point holding the old continuation and,
when the key continues, a new leaf initialized from the value bytes). -/
def insAux : List Byte → Option Val → List (Byte × Node) → Key → Val → Node
  | [], _, ch, [], v => .mk [] (some v) ch
  | [], val, ch, b :: kt, v =>
    match findChild b ch with
    | some (.mk l2 v2 c2) => .mk [] val (setChild b (insAux l2 v2 c2 kt v) ch)
    | none => .mk [] val (setChild b (.mk kt (some v) []) ch)
  | lb :: lt, val, ch, [], v => .mk [] (some v) [(lb, .mk lt val ch)]
  | lb :: lt, val, ch, kb :: kt, v =>
    if kb = lb then consLabel lb (insAux lt val ch kt v)
    else .mk [] none [(lb, .mk lt val ch), (kb, .mk kt (some v) [])]

/-- Structural insert on a whole node. -/
def Node.ins (n : Node) (key : Key) (v : Val) : Node :=
  match n with
  | .mk l val ch => insAux l val ch key v

/-- One step of a declarative walk: `c.find rest` through the child reached
over byte `b`, or `none` when the child map has no entry for `b`. -/
def stepChild (ch : List (Byte × Node)) (b : Byte) (rest : Key) : Option Val :=
  match findChild b ch with
  | some c => c.find rest
  | none => none

/-- Declarative path-spelling relation: `Spells n key w` holds when walking
`n` along `key` reaches a terminal node whose path spells `key` and whose
value slot holds `w`.  This is the specification-side reading of section 4.C
lookup, against which the executable walk `Node.find` is checked. -/
inductive Spells : Node → Key → Val → Prop where
  | here (label : List Byte) (w : Val) (ch : List (Byte × Node)) :
      Spells (.mk label (some w) ch) label w
  | there (label : List Byte) (val : Option Val) (ch : List (Byte × Node))
      (b : Byte) (c : Node) (rest : Key) (w : Val) :
      findChild b ch = some c → Spells c rest w →
      Spells (.mk label val ch) (label ++ b :: rest) w

/-- Concurrency levels, translated from the header, lines 35-41:
`TERARK_ENUM_PLAIN_INCLASS(ConcurrentLevel, byte_t, NoWriteReadOnly,
SingleThreadStrict, SingleThreadShared, OneWriteMultiRead,
MultiWriteMultiRead)` — consecutive codes starting at 0. -/
inductive ConcurrentLevel : Type where
  | NoWriteReadOnly
  | SingleThreadStrict
  | SingleThreadShared
  | OneWriteMultiRead
  | MultiWriteMultiRead

/-- Numeric code of each enum constant (plain C++ enum, values 0..4). -/
def ConcurrentLevel.code : ConcurrentLevel → Nat
  | .NoWriteReadOnly => 0
  | .SingleThreadStrict => 1
  | .SingleThreadShared => 2
  | .OneWriteMultiRead => 3
  | .MultiWriteMultiRead => 4

/-- Trie state.  Modelled from the spec: section 3 "Trie" — the root node, the
`num_words` counter, the remaining arena budget (`max_memory` minus usage),
the fixed per-trie value size, the read-only flag (standing for the
`m_insert` function-pointer having been swapped to the read-only stub) and
the configured concurrency level. -/
structure Trie where
  root : Node
  numWords : Nat
  memLeft : Nat
  valsize : Nat
  readonly : Bool
  level : ConcurrentLevel

/-- Factory, translated from the header, lines 190-192:
`create(size_t valsize, size_t maxMem, ConcurrentLevel)`.  The fresh trie is
empty, has the full memory budget, and refuses writes exactly when created at
level `NoWriteReadOnly` (spec section 4.F, level 0: insert fails read-only). -/
def Trie.create (valsize maxMem : Nat) (level : ConcurrentLevel) : Trie :=
  { root := .mk [] none []
    numWords := 0
    memLeft := maxMem
    valsize := valsize
    readonly := match level with
      | .NoWriteReadOnly => true
      | _ => false
    level := level }

/-- Default maximum memory of the factory, from the header line 191:
`size_t maxMem = 512<<10`. -/
def defaultMaxMem : Nat := 512 <<< 10

/-- The factory call with the defaulted parameters omitted, from the header
lines 190-192: `maxMem` defaults to `512<<10` and the level defaults to
`OneWriteMultiRead`. -/
def Trie.createDefault (valsize : Nat) : Trie :=
  Trie.create valsize defaultMaxMem ConcurrentLevel.OneWriteMultiRead

/-- Abstract arena cost of inserting `key`: the new nodes, label bytes and the
value slot all come from the arena.  Modelled from the spec: section 4.A
"allocate(n_bytes) fails when total usage would exceed the configured
max_memory"; the exact byte accounting is not specified, so the model charges
one cell per key byte plus the value slot plus a node header, which preserves
the only facts the claims use (a failed allocation is possible iff the budget
is short, and success consumes budget). -/
def insertCost (key : Key) (valsize : Nat) : Nat :=
  key.length + valsize + 1

/-- Insert, modelled from the spec: sections 4.C, 6 and 7, and the return
contract documented in the header lines 198-203.  The boolean result and the
token's value pointer (modelled as `Option Val`: `none` = null, `some w` =
points at a slot holding bytes `w`) encode the outcome:
`(true, some v)` new key inserted with the value bytes copied;
`(true, none)` out-of-memory, key not inserted;
`(false, some w)` key existed, token points at the existing slot.
When `set_readonly()` has been called the dispatcher `m_insert` has been
swapped to the read-only stub, which per spec section 7 reports the
`read-only` error in-band as `insert -> false` (never by unwinding); the stub
is modelled as the total function returning `((false, none))` and leaving the
trie unchanged. -/
def Trie.insert (t : Trie) (k : Key) (v : Val) : (Bool × Option Val) × Trie :=
  if t.readonly then ((false, none), t)
  else
    match t.root.find k with
    | some w => ((false, some w), t)
    | none =>
      if insertCost k t.valsize ≤ t.memLeft then
        ((true, some v),
         { t with root := t.root.ins k v
                  numWords := t.numWords + 1
                  memLeft := t.memLeft - insertCost k t.valsize })
      else ((true, none), t)

/-- Lookup, modelled from the spec: section 4.C — on match-to-terminal the
token's value is the slot address (modelled as the slot's bytes) and the
result is true; on any mismatch or premature terminal the result is false and
the token's value is null (`none`). -/
def Trie.lookup (t : Trie) (k : Key) : Bool × Option Val :=
  match t.root.find k with
  | some w => (true, some w)
  | none => (false, none)

/-- `set_readonly()`, modelled from the spec: section 4.F — swaps `m_insert`
to the read-only stub, represented by setting the flag; no interface
operation clears it. -/
def Trie.set_readonly (t : Trie) : Trie :=
  { t with readonly := true }

/-- `is_readonly()` accessor. -/
def Trie.is_readonly (t : Trie) : Bool :=
  t.readonly

/-- `num_words()` accessor (header line 255). -/
def Trie.num_words (t : Trie) : Nat :=
  t.numWords

/-- Client-visible operations of a usage trace: insert attempts and
`set_readonly` calls (lookups do not change the trie state). -/
inductive Op : Type where
  | ins (k : Key) (v : Val)
  | setRO

/-- Apply one operation to the trie state. -/
def Trie.applyOp (t : Trie) : Op → Trie
  | .ins k v => (t.insert k v).2
  | .setRO => t.set_readonly

/-- Run a trace of operations left to right. -/
def Trie.runOps : Trie → List Op → Trie
  | t, [] => t
  | t, op :: ops => (t.applyOp op).runOps ops

/-- Keys of the trace's successful inserts, in order: an insert is successful
when it returns true with a non-null value pointer. -/
def successKeys : Trie → List Op → List Key
  | _, [] => []
  | t, .ins k v :: ops =>
    (match (t.insert k v).1 with
     | (true, some _) => k :: successKeys (t.applyOp (.ins k v)) ops
     | _ => successKeys (t.applyOp (.ins k v)) ops)
  | t, .setRO :: ops => successKeys (t.applyOp .setRO) ops

/-- The insert return contract of the header lines 198-203, expressed over the
model: the boolean result together with the token's value encodes exactly one
of the three outcomes (new key with the bytes copied, out-of-memory with the
key not inserted, or key already present with the token pointing at the
existing slot). -/
def InsertOutcomeSpec (t : Trie) (k : Key) (v : Val) : Prop :=
  ((t.insert k v).1 = (true, some v) ∧ t.root.find k = none
     ∧ ((t.insert k v).2).root.find k = some v)
  ∨ ((t.insert k v).1 = (true, none) ∧ (t.insert k v).2 = t
     ∧ t.memLeft < insertCost k t.valsize ∧ t.root.find k = none)
  ∨ (∃ w, (t.insert k v).1 = (false, some w) ∧ t.root.find k = some w
     ∧ (t.insert k v).2 = t)

/-- Outcome of inserting the same key twice when the first insert succeeded:
the second attempt reports the key as existing (false, pointing at the slot
holding the first value), leaves the trie unchanged, and `num_words` has
grown by exactly one over the pair. -/
def DoubleInsertSpec (t : Trie) (k : Key) (v : Val) : Prop :=
  (((t.insert k v).2).insert k v).1 = (false, some v)
  ∧ (((t.insert k v).2).insert k v).2 = (t.insert k v).2
  ∧ ((t.insert k v).2).num_words = t.num_words + 1

/-- Token lifecycle states, translated from the header lines 63-69. -/
inductive TokenState : Type where
  | ReleaseDone
  | AcquireDone
  | ReleaseWait
  | DisposeWait
  | DisposeDone

/-- Size in bytes of the C++ `byte_t` type. -/
def byteTSize : Nat := 1

/-- `TokenState` is declared `enum TokenState : byte_t` (header line 63), so
its underlying storage is one byte. -/
def tokenStateSizeofBytes : Nat := byteTSize

/-- The flag pair, translated from the header lines 70-73: a `TokenState`
byte and an `is_head` byte that must be updated together atomically. -/
structure TokenFlags : Type where
  state : TokenState
  is_head : Bool

/-- Object size of `TokenFlags` in bytes: two fields of one byte each, both
with alignment 1, in a C++ standard-layout struct, hence no padding. -/
def tokenFlagsSizeofBytes : Nat := tokenStateSizeofBytes + byteTSize

/-- The condition asserted by the header line 74:
`static_assert(sizeof(TokenFlags) == 2, "sizeof(TokenFlags) == 1")`.
The asserted condition compares against 2; only the message text says 1. -/
def tokenFlagsAssertCond : Prop := tokenFlagsSizeofBytes = 2

/-- The size claimed by the stale message text of that static assertion. -/
def tokenFlagsAssertMsgSize : Nat := 1

/-- A registered token of the reclamation protocol.  Modelled from the spec:
section 3 "Token" — the id, the acquisition stamp `acqseq` (the version at
which the token was last acquired), the published stamp `verseq` (refreshed
by `update()`), and the lifecycle state. -/
structure Tok : Type where
  tid : Nat
  acqseq : Nat
  verseq : Nat
  tstate : TokenState

/-- Global state of the token / reclamation protocol.  Modelled from the
spec: sections 4.D and 4.E — the trie's global version counter, the registry
of live (acquired) tokens, the lazy-free queue of `(cell, stamp)` pairs, the
cells already returned to the allocator's fastbins (with the stamp they
carried when returned), and the token objects whose memory has not been
reclaimed yet. -/
structure PState : Type where
  version : Nat
  live : List Tok
  lazyq : List (Nat × Nat)
  fastbin : List (Nat × Nat)
  allocTok : List Nat

/-- Acquire (spec section 4.D): fetch-and-increment the global version into
the token's `acqseq` (and initial `verseq`), append the token to the
registry, state `AcquireDone`; the token object is allocated if it was not. -/
def acquireState (s : PState) (tid : Nat) : PState :=
  { s with version := s.version + 1
           live := s.live ++ [⟨tid, s.version, s.version, .AcquireDone⟩]
           allocTok := if tid ∈ s.allocTok then s.allocTok else tid :: s.allocTok }

/-- Update (spec section 4.D): refresh the token's `verseq` to the current
global version so it stops pinning older reclamations; `acqseq` unchanged. -/
def updateState (s : PState) (tid : Nat) : PState :=
  { s with live := s.live.map fun t =>
      if t.tid = tid then { t with verseq := s.version } else t }

/-- Defer-free (spec section 4.E): append the freed cell to the lazy-free
queue stamped with the current global version. -/
def deferFreeState (s : PState) (cell : Nat) : PState :=
  { s with lazyq := (cell, s.version) :: s.lazyq }

/-- Release (spec section 4.D): unlink the token from the registry. -/
def releaseState (s : PState) (tid : Nat) : PState :=
  { s with live := s.live.filter fun t => t.tid != tid }

/-- Reclaim one lazily-freed cell into the fastbins (spec sections 4.E and
invariant I5); the guard that makes this step legal lives in `PStep.gc`. -/
def gcState (s : PState) (cell V : Nat) : PState :=
  { s with lazyq := s.lazyq.erase (cell, V)
           fastbin := (cell, V) :: s.fastbin }

/-- Dispose (spec section 4.D and header line 114 `dispose(); ///< delete
lazy`): the token transitions to `DisposeWait`; its memory is NOT freed by
this step — `allocTok` is untouched. -/
def disposeState (s : PState) (tid : Nat) : PState :=
  { s with live := s.live.map fun t =>
      if t.tid = tid then { t with tstate := .DisposeWait } else t }

/-- Deferred reclamation of a disposed token's memory, once the protocol has
let it pass out of the registry. -/
def freeTokState (s : PState) (tid : Nat) : PState :=
  { s with allocTok := s.allocTok.erase tid }

/-- Step relation of the token / reclamation protocol.  Modelled from the
spec: sections 4.D and 4.E.  The `gc` step carries invariant I5 as its guard:
a cell stamped `V` moves to the fastbins only when every live token's
`verseq` exceeds `V` (the minimum live `verseq` exceeds `V`). -/
inductive PStep : PState → PState → Prop where
  | acquire (s : PState) (tid : Nat) : PStep s (acquireState s tid)
  | update (s : PState) (tid : Nat) : PStep s (updateState s tid)
  | deferFree (s : PState) (cell : Nat) : PStep s (deferFreeState s cell)
  | release (s : PState) (tid : Nat) : PStep s (releaseState s tid)
  | gc (s : PState) (cell V : Nat)
      (hmem : (cell, V) ∈ s.lazyq)
      (hgate : ∀ t ∈ s.live, V < t.verseq) :
      PStep s (gcState s cell V)
  | dispose (s : PState) (tid : Nat) : PStep s (disposeState s tid)
  | freeTok (s : PState) (tid : Nat)
      (hgone : tid ∉ s.live.map Tok.tid) :
      PStep s (freeTokState s tid)

/-- Reachability along protocol steps. -/
inductive PReach : PState → PState → Prop where
  | refl (s : PState) : PReach s s
  | tail (s t u : PState) : PReach s t → PStep t u → PReach s u

/-- The empty protocol state: version 0, nothing registered or queued. -/
def pInit : PState := ⟨0, [], [], [], []⟩

/-- Trace exhibiting a long-lived token that refreshes its `verseq`:
token 1 acquires at version 0. -/
def c6s1 : PState := acquireState pInit 1

/-- A cell (number 7) is lazily freed, stamped with the current version 1. -/
def c6s2 : PState := deferFreeState c6s1 7

/-- Token 2 acquires at version 1, bumping the global version to 2. -/
def c6s3 : PState := acquireState c6s2 2

/-- Token 2 releases. -/
def c6s4 : PState := releaseState c6s3 2

/-- Token 1 calls update, refreshing its `verseq` to 2 (its `acqseq` stays 0). -/
def c6s5 : PState := updateState c6s4 1

/-- The gc step returns cell 7 (stamped 1): every live `verseq` is now 2 > 1,
yet token 1 is still live with `acqseq` 0 ≤ 1. -/
def c6s6 : PState := gcState c6s5 7 1

/-- Actions a token object can be subjected to when its owner lets go of it:
the deferred-disposal route or an immediate synchronous delete. -/
inductive ProtoAction : Type where
  | dispose (tid : Nat)
  | freeNow (tid : Nat)

/-- `TokenDeleter::operator()`, translated from the header lines 135-137:
`void operator()(TokenBase* p) const { p->dispose(); }` — it invokes
`dispose()` on the token, never a direct delete. -/
def tokenDeleterCall (tid : Nat) : ProtoAction :=
  ProtoAction.dispose tid

/-- The three token smart-pointer aliases of the header (lines 147, 160, 170):
`ReaderTokenPtr`, `WriterTokenPtr` and `IteratorPtr`, all
`std::unique_ptr<_, TokenDeleter>`. -/
inductive TokenKind : Type where
  | reader
  | writer
  | iterator

/-- Destroying a token smart pointer runs its deleter on the held token
(`std::unique_ptr` destructor semantics); all three aliases use
`TokenDeleter`. -/
def destroyPtr (_ : TokenKind) (tid : Nat) : ProtoAction :=
  tokenDeleterCall tid

/-- Effect of a `ProtoAction` on the protocol state: `dispose` is the
protocol's deferred route, `freeNow` would free the object synchronously. -/
def applyProtoAction (s : PState) : ProtoAction → PState
  | .dispose tid => disposeState s tid
  | .freeNow tid => { s with allocTok := s.allocTok.erase tid }

/-- Which-assert marker for the `value_of` / `mutable_value_of` templates. -/
inductive AssertKind : Type where
  | valsizeMismatch
  | nullValue
  | misaligned

/-- Result of a checked access: the loaded value, or the assertion that
fired. -/
inductive CheckedValue (α : Type) : Type where
  | ok (a : α)
  | assertViolation (k : AssertKind)

/-- `TokenBase::value_of<T>`, translated from the header lines 118-124:
`assert(sizeof(T) == m_trie->m_valsize); assert(NULL != m_value);
assert(size_t(m_value) % m_trie->mem_align_size() == 0);
return unaligned_load<T>(m_value);` — the three assertions in source order,
then the load.  `m_value` is the token's value pointer (`none` = null),
`load` reads the bytes at an address. -/
def value_of (sizeofT m_valsize alignSize : Nat) (m_value : Option Nat)
    (load : Nat → Val) : CheckedValue Val :=
  if sizeofT = m_valsize then
    match m_value with
    | none => .assertViolation .nullValue
    | some addr =>
      if addr % alignSize = 0 then .ok (load addr)
      else .assertViolation .misaligned
  else .assertViolation .valsizeMismatch

/-- `TokenBase::mutable_value_of<T>`, translated from the header lines
125-131: the same three assertions, then
`return *reinterpret_cast<T*>(m_value);` (modelled as the bytes at the
address). -/
def mutable_value_of (sizeofT m_valsize alignSize : Nat) (m_value : Option Nat)
    (load : Nat → Val) : CheckedValue Val :=
  if sizeofT = m_valsize then
    match m_value with
    | none => .assertViolation .nullValue
    | some addr =>
      if addr % alignSize = 0 then .ok (load addr)
      else .assertViolation .misaligned
  else .assertViolation .valsizeMismatch

/-- Whether a checked access passed all assertions. -/
def CheckedValue.isOk : CheckedValue α → Bool
  | .ok _ => true
  | .assertViolation _ => false

/-- A trivial memory for witnesses: every address holds four zero bytes. -/
def load0 : Nat → Val := fun _ => [0, 0, 0, 0]

theorem findChild_setChild_self (b : Byte) (x : Node) :
    ∀ l, findChild b (setChild b x l) = some x := by
  intro l
  induction l with
  | nil => simp [setChild, findChild]
  | cons hd tl ih =>
    obtain ⟨b0, c⟩ := hd
    by_cases h : b = b0 <;> simp [setChild, findChild, h, ih]

theorem findChild_setChild_other (b b2 : Byte) (x : Node) (h : b2 ≠ b) :
    ∀ l, findChild b2 (setChild b x l) = findChild b2 l := by
  intro l
  induction l with
  | nil => simp [setChild, findChild, h]
  | cons hd tl ih =>
    obtain ⟨b0, c⟩ := hd
    by_cases hb : b = b0
    · subst hb
      simp [setChild, findChild, h, ih]
    · by_cases h2 : b2 = b0 <;> simp [setChild, findChild, hb, h2, ih]

theorem findAux_self (label : List Byte) :
    ∀ (val : Option Val) (ch : List (Byte × Node)), findAux label val ch label = val := by
  induction label with
  | nil => intro val ch; rfl
  | cons lb lt ih => intro val ch; simp [findAux, ih]

theorem findAux_append (label : List Byte) :
    ∀ (val : Option Val) (ch : List (Byte × Node)) (b : Byte) (rest : Key),
      findAux label val ch (label ++ b :: rest) = stepChild ch b rest := by
  induction label with
  | nil =>
    intro val ch b rest
    cases hc : findChild b ch with
    | some c =>
      cases c with
      | mk l v cc => simp [findAux, stepChild, hc, Node.find]
    | none => simp [findAux, stepChild, hc]
  | cons lb lt ih =>
    intro val ch b rest
    simp [findAux, ih]

theorem findAux_noChildren (label : List Byte) :
    ∀ (val : Option Val) (key : Key),
      findAux label val [] key = if key = label then val else none := by
  induction label with
  | nil =>
    intro val key
    cases key with
    | nil => simp [findAux]
    | cons b r => simp [findAux, findChild]
  | cons lb lt ih =>
    intro val key
    cases key with
    | nil => simp [findAux]
    | cons kb kt =>
      by_cases h : kb = lb
      · subst h
        simp [findAux, ih, List.cons.injEq]
      · simp [findAux, h, List.cons.injEq]

theorem find_empty (k : Key) : (Node.mk [] none []).find k = none := by
  cases k with
  | nil => rfl
  | cons b r => simp [Node.find, findAux, findChild]

theorem findAux_nilLabel (val : Option Val) (ch : List (Byte × Node)) (b : Byte) (rest : Key) :
    findAux [] val ch (b :: rest) = stepChild ch b rest :=
  findAux_append [] val ch b rest

theorem insAux_find_self (key : Key) :
    ∀ (label : List Byte) (val : Option Val) (ch : List (Byte × Node)) (v : Val),
      (insAux label val ch key v).find key = some v := by
  induction key with
  | nil =>
    intro label val ch v
    cases label with
    | nil => simp [insAux, Node.find, findAux]
    | cons lb lt => simp [insAux, Node.find, findAux]
  | cons b kt ih =>
    intro label val ch v
    cases label with
    | nil =>
      cases hc : findChild b ch with
      | some c =>
        cases c with
        | mk l2 v2 c2 =>
          simp only [insAux, hc, Node.find]
          rw [findAux_nilLabel]
          simp only [stepChild, findChild_setChild_self]
          exact ih l2 v2 c2 v
      | none =>
        simp only [insAux, hc, Node.find]
        rw [findAux_nilLabel]
        simp only [stepChild, findChild_setChild_self]
        simp [Node.find, findAux_self]
    | cons lb lt =>
      by_cases hbl : b = lb
      · subst hbl
        cases hY : insAux lt val ch kt v with
        | mk l2 v2 c2 =>
          have hstep : insAux (b :: lt) val ch (b :: kt) v
              = consLabel b (insAux lt val ch kt v) := by
            simp [insAux]
          rw [hstep, hY]
          simp only [consLabel, Node.find, findAux, if_pos rfl]
          have := ih lt val ch v
          rw [hY] at this
          simpa [Node.find] using this
      · simp only [insAux, if_neg hbl, Node.find]
        rw [findAux_nilLabel]
        have hfc : findChild b [(lb, Node.mk lt val ch), (b, Node.mk kt (some v) [])]
            = some (Node.mk kt (some v) []) := by
          simp [findChild, hbl]
        simp [stepChild, hfc, Node.find, findAux_self]

theorem insAux_find_other (key : Key) :
    ∀ (key2 : Key), key2 ≠ key →
    ∀ (label : List Byte) (val : Option Val) (ch : List (Byte × Node)) (v : Val),
      (insAux label val ch key v).find key2 = (Node.mk label val ch).find key2 := by
  induction key with
  | nil =>
    intro key2 hne label val ch v
    cases label with
    | nil =>
      cases key2 with
      | nil => exact absurd rfl hne
      | cons c2 r2 =>
        simp only [insAux, Node.find]
        rw [findAux_nilLabel, findAux_nilLabel]
    | cons lb lt =>
      cases key2 with
      | nil => exact absurd rfl hne
      | cons c2 r2 =>
        simp only [insAux, Node.find]
        rw [findAux_nilLabel]
        by_cases hc : c2 = lb
        · subst hc
          simp [stepChild, findChild, Node.find, findAux]
        · simp [stepChild, findChild, hc, findAux]
  | cons b kt ih =>
    intro key2 hne label val ch v
    cases label with
    | nil =>
      cases hc : findChild b ch with
      | some c =>
        cases c with
        | mk l2 v2 c2 =>
          simp only [insAux, hc, Node.find]
          cases key2 with
          | nil => rfl
          | cons c' r' =>
            rw [findAux_nilLabel, findAux_nilLabel]
            by_cases hcb : c' = b
            · subst hcb
              have hr' : r' ≠ kt := by
                intro h
                exact hne (by rw [h])
              simp only [stepChild, findChild_setChild_self, hc]
              exact ih r' hr' l2 v2 c2 v
            · simp only [stepChild, findChild_setChild_other _ _ _ hcb]
      | none =>
        simp only [insAux, hc, Node.find]
        cases key2 with
        | nil => rfl
        | cons c' r' =>
          rw [findAux_nilLabel, findAux_nilLabel]
          by_cases hcb : c' = b
          · subst hcb
            have hr' : r' ≠ kt := by
              intro h
              exact hne (by rw [h])
            simp only [stepChild, findChild_setChild_self, hc]
            simp [Node.find, findAux_noChildren, hr']
          · simp only [stepChild, findChild_setChild_other _ _ _ hcb]
    | cons lb lt =>
      by_cases hbl : b = lb
      · subst hbl
        cases hY : insAux lt val ch kt v with
        | mk l2 v2 c2 =>
          have hstep : insAux (b :: lt) val ch (b :: kt) v
              = consLabel b (insAux lt val ch kt v) := by
            simp [insAux]
          rw [hstep, hY]
          simp only [consLabel, Node.find]
          cases key2 with
          | nil => simp [findAux]
          | cons c' r' =>
            simp only [findAux]
            by_cases hcb : c' = b
            · subst hcb
              simp only [if_pos rfl]
              have hr' : r' ≠ kt := by
                intro h
                exact hne (by rw [h])
              have := ih r' hr' lt val ch v
              rw [hY] at this
              simpa [Node.find] using this
            · simp [hcb]
      · simp only [insAux, if_neg hbl, Node.find]
        cases key2 with
        | nil => simp [findAux]
        | cons c' r' =>
          rw [findAux_nilLabel]
          by_cases h1 : c' = lb
          · subst h1
            have hfc : findChild c' [(c', Node.mk lt val ch), (b, Node.mk kt (some v) [])]
                = some (Node.mk lt val ch) := by
              simp [findChild]
            simp [stepChild, hfc, Node.find, findAux]
          · by_cases h2 : c' = b
            · subst h2
              have hr' : r' ≠ kt := by
                intro h
                exact hne (by rw [h])
              have hfc : findChild c' [(lb, Node.mk lt val ch), (c', Node.mk kt (some v) [])]
                  = some (Node.mk kt (some v) []) := by
                simp [findChild, h1]
              simp [stepChild, hfc, Node.find, findAux_noChildren, hr', findAux, h1]
            · have hfc : findChild c' [(lb, Node.mk lt val ch), (b, Node.mk kt (some v) [])]
                  = none := by
                simp [findChild, h1, h2]
              simp [stepChild, hfc, findAux, h1]

theorem Node.ins_find_self (n : Node) (k : Key) (v : Val) :
    (n.ins k v).find k = some v := by
  cases n with
  | mk l val ch => exact insAux_find_self k l val ch v

theorem Node.ins_find_other (n : Node) (k : Key) (v : Val) (k2 : Key) (h : k2 ≠ k) :
    (n.ins k v).find k2 = n.find k2 := by
  cases n with
  | mk l val ch => exact insAux_find_other k k2 h l val ch v

theorem findAux_split (label : List Byte) :
    ∀ (key : Key) (val : Option Val) (ch : List (Byte × Node)) (w : Val),
      findAux label val ch key = some w →
      (key = label ∧ val = some w)
      ∨ (∃ b rest c, key = label ++ b :: rest ∧ findChild b ch = some c
          ∧ c.find rest = some w) := by
  induction label with
  | nil =>
    intro key val ch w h
    cases key with
    | nil => exact Or.inl ⟨rfl, h⟩
    | cons b rest =>
      right
      rw [findAux_nilLabel] at h
      cases hc : findChild b ch with
      | some c =>
        refine ⟨b, rest, c, rfl, hc, ?_⟩
        simpa [stepChild, hc] using h
      | none => simp [stepChild, hc] at h
  | cons lb lt ih =>
    intro key val ch w h
    cases key with
    | nil => simp [findAux] at h
    | cons kb kt =>
      by_cases hk : kb = lb
      · subst hk
        simp only [findAux, if_pos rfl] at h
        rcases ih kt val ch w h with ⟨h1, h2⟩ | ⟨b, rest, c, h1, h2, h3⟩
        · exact Or.inl ⟨by rw [h1], h2⟩
        · exact Or.inr ⟨b, rest, c, by rw [h1]; rfl, h2, h3⟩
      · simp [findAux, hk] at h

theorem find_of_spells (n : Node) (key : Key) (w : Val) (h : Spells n key w) :
    n.find key = some w := by
  induction h with
  | here la wa ca => simp [Node.find, findAux_self]
  | there la va ca ba cn ra wa hfc hsp ih =>
    simp only [Node.find]
    rw [findAux_append]
    simp [stepChild, hfc, ih]

theorem spells_of_find_aux :
    ∀ (m : Nat) (key : Key), key.length < m →
      ∀ (n : Node) (w : Val), n.find key = some w → Spells n key w := by
  intro m
  induction m with
  | zero => intro key h; exact absurd h (Nat.not_lt_zero _)
  | succ m ih =>
    intro key hlen n w h
    cases n with
    | mk label val ch =>
      simp only [Node.find] at h
      rcases findAux_split label key val ch w h with ⟨h1, h2⟩ | ⟨b, rest, c, h1, h2, h3⟩
      · subst h1
        subst h2
        exact Spells.here _ _ _
      · subst h1
        have hr : rest.length < m := by
          have hl2 : rest.length + 1 ≤ (label ++ b :: rest).length := by
            rw [List.length_append, List.length_cons]
            exact Nat.le_add_left _ _
          exact Nat.lt_of_succ_lt_succ (Nat.lt_of_le_of_lt hl2 hlen)
        exact Spells.there label val ch b c rest w h2 (ih rest hr c w h3)

theorem find_some_iff_spells (n : Node) (key : Key) (w : Val) :
    n.find key = some w ↔ Spells n key w := by
  constructor
  · exact fun h => spells_of_find_aux (key.length + 1) key (Nat.lt_succ_self _) n w h
  · exact find_of_spells n key w

theorem insert_spec (t : Trie) (k : Key) (v : Val) :
    (t.readonly = true ∧ t.insert k v = ((false, none), t))
    ∨ (t.readonly = false ∧ ∃ w, t.root.find k = some w
        ∧ t.insert k v = ((false, some w), t))
    ∨ (t.readonly = false ∧ t.root.find k = none
        ∧ insertCost k t.valsize ≤ t.memLeft
        ∧ t.insert k v = ((true, some v),
            { t with root := t.root.ins k v
                     numWords := t.numWords + 1
                     memLeft := t.memLeft - insertCost k t.valsize }))
    ∨ (t.readonly = false ∧ t.root.find k = none
        ∧ ¬ insertCost k t.valsize ≤ t.memLeft
        ∧ t.insert k v = ((true, none), t)) := by
  cases hr : t.readonly with
  | true =>
    refine Or.inl ⟨rfl, ?_⟩
    unfold Trie.insert
    rw [hr, if_pos rfl]
  | false =>
    cases hf : t.root.find k with
    | some w =>
      refine Or.inr (Or.inl ⟨rfl, w, rfl, ?_⟩)
      unfold Trie.insert
      rw [hr, if_neg Bool.false_ne_true, hf]
    | none =>
      by_cases hm : insertCost k t.valsize ≤ t.memLeft
      · refine Or.inr (Or.inr (Or.inl ⟨rfl, rfl, hm, ?_⟩))
        unfold Trie.insert
        rw [hr, if_neg Bool.false_ne_true, hf]
        exact if_pos hm
      · refine Or.inr (Or.inr (Or.inr ⟨rfl, rfl, hm, ?_⟩))
        unfold Trie.insert
        rw [hr, if_neg Bool.false_ne_true, hf]
        exact if_neg hm

theorem successKeys_ins_true (t : Trie) (k : Key) (v w : Val) (ops : List Op)
    (h : (t.insert k v).1 = (true, some w)) :
    successKeys t (.ins k v :: ops) = k :: successKeys (t.applyOp (.ins k v)) ops := by
  simp only [successKeys, h]

theorem successKeys_ins_false (t : Trie) (k : Key) (v : Val) (w : Option Val) (ops : List Op)
    (h : (t.insert k v).1 = (false, w)) :
    successKeys t (.ins k v :: ops) = successKeys (t.applyOp (.ins k v)) ops := by
  simp only [successKeys, h]

theorem successKeys_ins_oom (t : Trie) (k : Key) (v : Val) (ops : List Op)
    (h : (t.insert k v).1 = (true, none)) :
    successKeys t (.ins k v :: ops) = successKeys (t.applyOp (.ins k v)) ops := by
  simp only [successKeys, h]

theorem applyOp_eq_of_insert_eq (t : Trie) (k : Key) (v : Val) (r : Bool × Option Val)
    (u : Trie) (h : t.insert k v = (r, u)) : t.applyOp (.ins k v) = u := by
  show (t.insert k v).2 = u
  rw [h]

theorem find_persist_op (t : Trie) (op : Op) (k : Key) (w : Val)
    (h : t.root.find k = some w) : (t.applyOp op).root.find k = some w := by
  cases op with
  | setRO => exact h
  | ins k2 v2 =>
    rcases insert_spec t k2 v2 with ⟨_, he⟩ | ⟨_, w2, hf, he⟩ | ⟨_, hf, hm, he⟩ | ⟨_, hf, hm, he⟩
    · rw [applyOp_eq_of_insert_eq t k2 v2 _ _ he]
      exact h
    · rw [applyOp_eq_of_insert_eq t k2 v2 _ _ he]
      exact h
    · rw [applyOp_eq_of_insert_eq t k2 v2 _ _ he]
      by_cases hk : k = k2
      · rw [hk, hf] at h
        exact Option.noConfusion h
      · show (t.root.ins k2 v2).find k = some w
        rw [Node.ins_find_other _ _ _ _ hk]
        exact h
    · rw [applyOp_eq_of_insert_eq t k2 v2 _ _ he]
      exact h

theorem find_persist_run (ops : List Op) :
    ∀ (t : Trie) (k : Key) (w : Val),
      t.root.find k = some w → (t.runOps ops).root.find k = some w := by
  induction ops with
  | nil => intro t k w h; exact h
  | cons op ops ih =>
    intro t k w h
    exact ih _ k w (find_persist_op t op k w h)

theorem readonly_applyOp (t : Trie) (op : Op) (h : t.readonly = true) :
    (t.applyOp op).readonly = true := by
  cases op with
  | setRO => rfl
  | ins k v =>
    rcases insert_spec t k v with ⟨_, he⟩ | ⟨hr, _⟩ | ⟨hr, _⟩ | ⟨hr, _⟩
    · rw [applyOp_eq_of_insert_eq t k v _ _ he]
      exact h
    all_goals rw [h] at hr
    all_goals exact Bool.noConfusion hr

theorem readonly_runOps (ops : List Op) :
    ∀ (t : Trie), t.readonly = true → (t.runOps ops).readonly = true := by
  induction ops with
  | nil => intro t h; exact h
  | cons op ops ih => intro t h; exact ih _ (readonly_applyOp t op h)

theorem numWords_runOps (ops : List Op) :
    ∀ (t : Trie),
      (t.runOps ops).numWords = t.numWords + (successKeys t ops).length := by
  induction ops with
  | nil => intro t; rfl
  | cons op ops ih =>
    intro t
    have hstep : (t.runOps (op :: ops)) = (t.applyOp op).runOps ops := rfl
    rw [hstep, ih]
    cases op with
    | setRO => rfl
    | ins k v =>
      rcases insert_spec t k v with ⟨_, he⟩ | ⟨_, w2, hf, he⟩ | ⟨_, hf, hm, he⟩ | ⟨_, hf, hm, he⟩
      · rw [successKeys_ins_false t k v none ops (by rw [he]),
          applyOp_eq_of_insert_eq t k v _ _ he]
      · rw [successKeys_ins_false t k v (some w2) ops (by rw [he]),
          applyOp_eq_of_insert_eq t k v _ _ he]
      · rw [successKeys_ins_true t k v v ops (by rw [he]), List.length_cons,
          applyOp_eq_of_insert_eq t k v _ _ he]
        show t.numWords + 1 + _ = _
        rw [Nat.add_assoc, Nat.add_comm 1]
      · rw [successKeys_ins_oom t k v ops (by rw [he]),
          applyOp_eq_of_insert_eq t k v _ _ he]

theorem find_mem_successKeys (ops : List Op) :
    ∀ (t : Trie) (k : Key),
      (t.runOps ops).root.find k ≠ none →
      t.root.find k ≠ none ∨ k ∈ successKeys t ops := by
  induction ops with
  | nil => intro t k h; exact Or.inl h
  | cons op ops ih =>
    intro t k h
    rcases ih (t.applyOp op) k h with h1 | h1
    · cases op with
      | setRO => exact Or.inl h1
      | ins k2 v2 =>
        rcases insert_spec t k2 v2 with ⟨_, he⟩ | ⟨_, w2, hf, he⟩ | ⟨_, hf, hm, he⟩ | ⟨_, hf, hm, he⟩
        · rw [applyOp_eq_of_insert_eq t k2 v2 _ _ he] at h1
          exact Or.inl h1
        · rw [applyOp_eq_of_insert_eq t k2 v2 _ _ he] at h1
          exact Or.inl h1
        · by_cases hk : k = k2
          · subst hk
            right
            rw [successKeys_ins_true t _ v2 v2 ops (by rw [he])]
            exact List.mem_cons_self _ _
          · left
            rw [applyOp_eq_of_insert_eq t k2 v2 _ _ he] at h1
            have h2 : (t.root.ins k2 v2).find k ≠ none := h1
            rwa [Node.ins_find_other _ _ _ _ hk] at h2
        · rw [applyOp_eq_of_insert_eq t k2 v2 _ _ he] at h1
          exact Or.inl h1
    · right
      cases op with
      | setRO => exact h1
      | ins k2 v2 =>
        rcases insert_spec t k2 v2 with ⟨_, he⟩ | ⟨_, w2, hf, he⟩ | ⟨_, hf, hm, he⟩ | ⟨_, hf, hm, he⟩
        · rw [successKeys_ins_false t k2 v2 none ops (by rw [he])]
          exact h1
        · rw [successKeys_ins_false t k2 v2 (some w2) ops (by rw [he])]
          exact h1
        · rw [successKeys_ins_true t k2 v2 v2 ops (by rw [he])]
          exact List.mem_cons_of_mem _ h1
        · rw [successKeys_ins_oom t k2 v2 ops (by rw [he])]
          exact h1

theorem not_mem_successKeys (ops : List Op) :
    ∀ (t : Trie) (k : Key),
      t.root.find k ≠ none → k ∉ successKeys t ops := by
  induction ops with
  | nil => intro t k h; exact List.not_mem_nil k
  | cons op ops ih =>
    intro t k h
    cases op with
    | setRO => exact ih _ k h
    | ins k2 v2 =>
      rcases insert_spec t k2 v2 with ⟨_, he⟩ | ⟨_, w2, hf, he⟩ | ⟨_, hf, hm, he⟩ | ⟨_, hf, hm, he⟩
      · rw [successKeys_ins_false t k2 v2 none ops (by rw [he]),
          applyOp_eq_of_insert_eq t k2 v2 _ _ he]
        exact ih _ k h
      · rw [successKeys_ins_false t k2 v2 (some w2) ops (by rw [he]),
          applyOp_eq_of_insert_eq t k2 v2 _ _ he]
        exact ih _ k h
      · have hk : k ≠ k2 := by
          intro hkk
          rw [hkk] at h
          exact absurd hf h
        rw [successKeys_ins_true t k2 v2 v2 ops (by rw [he]),
          applyOp_eq_of_insert_eq t k2 v2 _ _ he]
        intro hmem
        rcases List.mem_cons.mp hmem with heq | hmem2
        · exact hk heq
        · refine ih _ k ?_ hmem2
          show (t.root.ins k2 v2).find k ≠ none
          rw [Node.ins_find_other _ _ _ _ hk]
          exact h
      · rw [successKeys_ins_oom t k2 v2 ops (by rw [he]),
          applyOp_eq_of_insert_eq t k2 v2 _ _ he]
        exact ih _ k h

theorem successKeys_nodup (ops : List Op) :
    ∀ (t : Trie), (successKeys t ops).Nodup := by
  induction ops with
  | nil => intro t; exact List.nodup_nil
  | cons op ops ih =>
    intro t
    cases op with
    | setRO => exact ih _
    | ins k2 v2 =>
      rcases insert_spec t k2 v2 with ⟨_, he⟩ | ⟨_, w2, hf, he⟩ | ⟨_, hf, hm, he⟩ | ⟨_, hf, hm, he⟩
      · rw [successKeys_ins_false t k2 v2 none ops (by rw [he])]
        exact ih _
      · rw [successKeys_ins_false t k2 v2 (some w2) ops (by rw [he])]
        exact ih _
      · rw [successKeys_ins_true t k2 v2 v2 ops (by rw [he]),
          applyOp_eq_of_insert_eq t k2 v2 _ _ he]
        refine List.nodup_cons.mpr ⟨?_, ih _⟩
        apply not_mem_successKeys
        show (t.root.ins k2 v2).find k2 ≠ none
        rw [Node.ins_find_self]
        exact fun hx => Option.noConfusion hx
      · rw [successKeys_ins_oom t k2 v2 ops (by rw [he])]
        exact ih _

theorem map_tid_dispose (tid : Nat) (l : List Tok) :
    (l.map (fun t => if t.tid = tid then { t with tstate := TokenState.DisposeWait } else t)).map
        Tok.tid = l.map Tok.tid := by
  induction l with
  | nil => rfl
  | cons hd tl ih => by_cases h : hd.tid = tid <;> simp [h, ih]

/-- C1 (amended): for every call `insert(key, value_bytes, token)` on a trie
on which `set_readonly` has not been called and that was not created at level
`NoWriteReadOnly`, the boolean result together with the token's value encodes
exactly one of three outcomes — true with non-null value: the key was new and
the value bytes were copied into the slot the token points at; true with null
value: the arena could not satisfy the allocation and the key was not
inserted; false: the key already existed and the token points at the existing
slot.  (On a read-only trie `insert` instead fails in-band with result false
and a null token value although the key need not exist, which refutes the
unconditional claim — see `C1_readonly_false_without_existing_key`.) -/
theorem C1_insert_result_contract (t : Trie) (k : Key) (v : Val)
    (h : t.readonly = false) : InsertOutcomeSpec t k v := by
  rcases insert_spec t k v with ⟨hr, he⟩ | ⟨hr, w, hf, he⟩ | ⟨hr, hf, hm, he⟩ | ⟨hr, hf, hm, he⟩
  · rw [h] at hr
    exact Bool.noConfusion hr
  · exact Or.inr (Or.inr ⟨w, by rw [he], hf, by rw [he]⟩)
  · left
    refine ⟨by rw [he], hf, ?_⟩
    rw [he]
    show (t.root.ins k v).find k = some v
    exact Node.ins_find_self t.root k v
  · exact Or.inr (Or.inl ⟨by rw [he], by rw [he], Nat.lt_of_not_le hm, hf⟩)

/-- C1 witness: the three-way contract instantiated at a concrete writable
trie and key. -/
theorem C1_insert_result_contract_witness :
    InsertOutcomeSpec (Trie.create 4 1000 ConcurrentLevel.OneWriteMultiRead) [97] [0, 1, 2, 3] :=
  C1_insert_result_contract _ _ _ rfl

/-- C1 counterexample to the claim as stated: on a read-only trie the insert
of a key that does not exist returns false with a null token value, so
"result false means the key already existed and token.value points at the
existing key's value slot" is violated. -/
theorem C1_readonly_false_without_existing_key :
    ((Trie.create 4 1000 ConcurrentLevel.NoWriteReadOnly).insert [97] [0, 1, 2, 3]).1
        = (false, none)
    ∧ (Trie.create 4 1000 ConcurrentLevel.NoWriteReadOnly).root.find [97] = none :=
  ⟨rfl, find_empty [97]⟩

/-- C2: round-trip — (a) after `insert(k, v)` returns true with a non-null
value pointer, every subsequent lookup of `k`, after any further trace of
operations, returns true with the same value bytes; (b) on a trace from a
fresh trie, lookup of any key that was never successfully inserted returns
false with a null token value. -/
theorem C2_roundtrip :
    (∀ (t : Trie) (k : Key) (v : Val) (ops : List Op),
        (t.insert k v).1.1 = true → (t.insert k v).1.2 ≠ none →
        (Trie.runOps (t.insert k v).2 ops).lookup k = (true, some v))
    ∧ (∀ (vs mm : Nat) (lvl : ConcurrentLevel) (ops : List Op) (k : Key),
        k ∉ successKeys (Trie.create vs mm lvl) ops →
        (Trie.runOps (Trie.create vs mm lvl) ops).lookup k = (false, none)) := by
  constructor
  · intro t k v ops h1 h2
    rcases insert_spec t k v with ⟨hr, he⟩ | ⟨hr, w, hf, he⟩ | ⟨hr, hf, hm, he⟩ | ⟨hr, hf, hm, he⟩
    · rw [he] at h1
      exact Bool.noConfusion h1
    · rw [he] at h1
      exact Bool.noConfusion h1
    · have hfind : ((t.insert k v).2).root.find k = some v := by
        rw [he]
        exact Node.ins_find_self t.root k v
      have hrun := find_persist_run ops _ k v hfind
      simp only [Trie.lookup, hrun]
    · rw [he] at h2
      exact absurd rfl h2
  · intro vs mm lvl ops k hnot
    by_cases hfind : (Trie.runOps (Trie.create vs mm lvl) ops).root.find k = none
    · simp only [Trie.lookup, hfind]
    · exfalso
      rcases find_mem_successKeys ops (Trie.create vs mm lvl) k hfind with h1 | h1
      · exact h1 (find_empty k)
      · exact hnot h1

/-- C2 witness: a concrete successful insert followed by a lookup, and a
lookup of a never-inserted key on a fresh trie. -/
theorem C2_roundtrip_witness :
    (Trie.runOps
        ((Trie.create 4 1000 ConcurrentLevel.OneWriteMultiRead).insert [97] [5, 5, 5, 5]).2
        []).lookup [97] = (true, some [5, 5, 5, 5])
    ∧ (Trie.runOps (Trie.create 4 1000 ConcurrentLevel.OneWriteMultiRead) []).lookup [98]
        = (false, none) :=
  ⟨C2_roundtrip.1 _ [97] [5, 5, 5, 5] [] rfl (fun hx => Option.noConfusion hx),
   C2_roundtrip.2 4 1000 ConcurrentLevel.OneWriteMultiRead [] [98] (List.not_mem_nil _)⟩

/-- C3: `set_readonly()` is monotonic — after it has been called, no matter
what further operations run, the trie stays read-only (the state can never be
undone) and every insert fails with the read-only error reported in-band
through the return contract (the model's total stub returns false with a null
token value and leaves the trie unchanged; per spec section 7 this error is
never reported by unwinding). -/
theorem C3_set_readonly_monotonic (t : Trie) (ops : List Op) (k : Key) (v : Val) :
    ((t.set_readonly.runOps ops).is_readonly = true)
    ∧ ((t.set_readonly.runOps ops).insert k v
        = ((false, none), t.set_readonly.runOps ops)) := by
  have hro : (t.set_readonly.runOps ops).readonly = true :=
    readonly_runOps ops t.set_readonly rfl
  refine ⟨hro, ?_⟩
  unfold Trie.insert
  rw [hro, if_pos rfl]

/-- C4: `lookup(key, token)` is the label-matching walk — it returns true
with the token pointing at the value slot exactly when the walk reaches a
terminal node whose path spells the key (the `Spells` relation), and on any
mismatch or premature terminal it returns false with the token value set to
null. -/
theorem C4_lookup_walk (t : Trie) (k : Key) :
    (∃ w, Spells t.root k w ∧ t.lookup k = (true, some w))
    ∨ ((∀ w, ¬ Spells t.root k w) ∧ t.lookup k = (false, none)) := by
  cases hf : t.root.find k with
  | some w =>
    left
    exact ⟨w, (find_some_iff_spells _ _ _).1 hf, by simp only [Trie.lookup, hf]⟩
  | none =>
    right
    refine ⟨?_, by simp only [Trie.lookup, hf]⟩
    intro w hs
    have hsome := (find_some_iff_spells t.root k w).2 hs
    rw [hf] at hsome
    exact Option.noConfusion hsome

/-- C4 witness: the dichotomy instantiated at a concrete trie and key. -/
theorem C4_lookup_walk_witness :
    (∃ w, Spells (Trie.create 4 8 ConcurrentLevel.OneWriteMultiRead).root [97] w
        ∧ (Trie.create 4 8 ConcurrentLevel.OneWriteMultiRead).lookup [97] = (true, some w))
    ∨ ((∀ w, ¬ Spells (Trie.create 4 8 ConcurrentLevel.OneWriteMultiRead).root [97] w)
        ∧ (Trie.create 4 8 ConcurrentLevel.OneWriteMultiRead).lookup [97] = (false, none)) :=
  C4_lookup_walk _ _

/-- C5 (amended): provided the first insert of `(k, v)` succeeds (returns
true with a non-null value pointer), inserting the same pair twice yields
exactly one true and one false — the second attempt reports the key as
existing, pointing at the slot holding `v`, and leaves the trie unchanged —
and `num_words` grows by exactly one over the pair; moreover on every trace
from a fresh trie `num_words()` equals the number of distinct keys ever
successfully inserted (the success keys are pairwise distinct and counted
exactly).  (Without the success hypothesis the claim fails: an out-of-memory
first insert also returns true — see `C5_oom_double_true`.) -/
theorem C5_idempotent_num_words :
    (∀ (t : Trie) (k : Key) (v : Val),
        (t.insert k v).1.1 = true → (t.insert k v).1.2 ≠ none →
        DoubleInsertSpec t k v)
    ∧ (∀ (vs mm : Nat) (lvl : ConcurrentLevel) (ops : List Op),
        (Trie.runOps (Trie.create vs mm lvl) ops).num_words
          = (successKeys (Trie.create vs mm lvl) ops).length
        ∧ (successKeys (Trie.create vs mm lvl) ops).Nodup) := by
  constructor
  · intro t k v h1 h2
    rcases insert_spec t k v with ⟨hr, he⟩ | ⟨hr, w, hf, he⟩ | ⟨hr, hf, hm, he⟩ | ⟨hr, hf, hm, he⟩
    · rw [he] at h1
      exact Bool.noConfusion h1
    · rw [he] at h1
      exact Bool.noConfusion h1
    · have hroot : (t.insert k v).2.root.find k = some v := by
        rw [he]
        exact Node.ins_find_self t.root k v
      have hro : (t.insert k v).2.readonly = false := by rw [he]; exact hr
      have hnw : (t.insert k v).2.numWords = t.numWords + 1 := by rw [he]
      rcases insert_spec (t.insert k v).2 k v with
        ⟨hr2, he2⟩ | ⟨hr2, w2, hf2, he2⟩ | ⟨hr2, hf2, hm2, he2⟩ | ⟨hr2, hf2, hm2, he2⟩
      · rw [hro] at hr2
        exact Bool.noConfusion hr2
      · rw [hroot] at hf2
        injection hf2 with h3
        subst h3
        exact ⟨by rw [he2], by rw [he2], hnw⟩
      · rw [hroot] at hf2
        exact Option.noConfusion hf2
      · rw [hroot] at hf2
        exact Option.noConfusion hf2
    · rw [he] at h2
      exact absurd rfl h2
  · intro vs mm lvl ops
    constructor
    · have hrun := numWords_runOps ops (Trie.create vs mm lvl)
      show (Trie.runOps (Trie.create vs mm lvl) ops).numWords = _
      rw [hrun]
      exact Nat.zero_add _
    · exact successKeys_nodup ops _

/-- C5 witness: the amended idempotence at a concrete trie where the first
insert succeeds, and the accounting on a concrete one-insert trace. -/
theorem C5_idempotent_num_words_witness :
    DoubleInsertSpec (Trie.create 4 1000 ConcurrentLevel.OneWriteMultiRead) [97] [9, 9, 9, 9]
    ∧ ((Trie.runOps (Trie.create 4 1000 ConcurrentLevel.OneWriteMultiRead)
          [Op.ins [97] [9, 9, 9, 9]]).num_words
        = (successKeys (Trie.create 4 1000 ConcurrentLevel.OneWriteMultiRead)
            [Op.ins [97] [9, 9, 9, 9]]).length
      ∧ (successKeys (Trie.create 4 1000 ConcurrentLevel.OneWriteMultiRead)
          [Op.ins [97] [9, 9, 9, 9]]).Nodup) :=
  ⟨C5_idempotent_num_words.1 _ [97] [9, 9, 9, 9] rfl (fun hx => Option.noConfusion hx),
   C5_idempotent_num_words.2 4 1000 ConcurrentLevel.OneWriteMultiRead [Op.ins [97] [9, 9, 9, 9]]⟩

/-- C5 counterexample to the claim as stated: with the arena budget exhausted
(maxMem = 0) both inserts of the same pair return true (each an out-of-memory
with a null value) and `num_words` stays 0, so the unconditional "one true
and one false, num_words increments by exactly one" fails. -/
theorem C5_oom_double_true :
    ((Trie.create 4 0 ConcurrentLevel.OneWriteMultiRead).insert [97] [1, 1, 1, 1]).1.1 = true
    ∧ (((Trie.create 4 0 ConcurrentLevel.OneWriteMultiRead).insert [97] [1, 1, 1, 1]).2.insert
          [97] [1, 1, 1, 1]).1.1 = true
    ∧ (((Trie.create 4 0 ConcurrentLevel.OneWriteMultiRead).insert [97] [1, 1, 1, 1]).2.insert
          [97] [1, 1, 1, 1]).2.num_words = 0 :=
  ⟨rfl, rfl, rfl⟩

/-- C6 (amended): reclamation gating as a never-property of the protocol's
step relation — whenever a step returns a cell stamped V to the fastbins,
every token live at the moment of return has `verseq` exceeding V, i.e. the
minimum live `verseq` exceeds V (spec invariant I5).  The claim's "equivalent"
acqseq-based formulation does not follow and is refuted by
`C6_acqseq_formulation_fails`: a live token that refreshed its `verseq` via
update may still have `acqseq` at most V. -/
theorem C6_gc_gating (s s2 : PState) (c V : Nat)
    (hstep : PStep s s2)
    (hnew : (c, V) ∈ s2.fastbin) (hold : (c, V) ∉ s.fastbin) :
    ∀ t ∈ s2.live, V < t.verseq := by
  cases hstep with
  | acquire tid => exact absurd hnew hold
  | update tid => exact absurd hnew hold
  | deferFree cell => exact absurd hnew hold
  | release tid => exact absurd hnew hold
  | dispose tid => exact absurd hnew hold
  | freeTok tid hg => exact absurd hnew hold
  | gc cell V0 hmem hgate =>
    intro t ht
    have hnew2 : (c, V) ∈ (cell, V0) :: s.fastbin := hnew
    have ht2 : t ∈ s.live := ht
    rcases List.mem_cons.mp hnew2 with heq | hmem2
    · cases heq
      exact hgate t ht2
    · exact absurd hmem2 hold

/-- C6 witness: the gating theorem applied at the concrete gc step of the
trace, evaluated at the one live token. -/
theorem C6_gc_gating_witness :
    (⟨1, 0, 2, TokenState.AcquireDone⟩ : Tok) ∈ c6s6.live
    ∧ 1 < (⟨1, 0, 2, TokenState.AcquireDone⟩ : Tok).verseq :=
  ⟨List.Mem.head _,
   C6_gc_gating c6s5 c6s6 7 1 (PStep.gc c6s5 7 1 (by decide) (by decide))
     (by decide) (by decide) ⟨1, 0, 2, TokenState.AcquireDone⟩ (List.Mem.head _)⟩

/-- C6 counterexample to the acqseq formulation of the claim: a reachable
trace in which the gc step legally returns cell 7 stamped V = 1 (every live
verseq is 2 > 1) while token 1 — acquired at version 0 and merely updated
since — is live at the moment of return with acqseq 0 ≤ 1. -/
theorem C6_acqseq_formulation_fails :
    PReach pInit c6s5
    ∧ PStep c6s5 c6s6
    ∧ (7, 1) ∈ c6s6.fastbin
    ∧ (7, 1) ∉ c6s5.fastbin
    ∧ ∃ t ∈ c6s6.live, t.acqseq ≤ 1 := by
  refine ⟨?_, PStep.gc c6s5 7 1 (by decide) (by decide), by decide, by decide, ?_⟩
  · exact PReach.tail _ _ _
      (PReach.tail _ _ _
        (PReach.tail _ _ _
          (PReach.tail _ _ _
            (PReach.tail _ _ _ (PReach.refl pInit) (PStep.acquire pInit 1))
            (PStep.deferFree c6s1 7))
          (PStep.acquire c6s2 2))
        (PStep.release c6s3 2))
      (PStep.update c6s4 1)
  · exact ⟨⟨1, 0, 2, TokenState.AcquireDone⟩, List.Mem.head _, by decide⟩

/-- C7: the `TokenFlags` record (state byte plus is_head byte) occupies
exactly 2 bytes, so the pair can be updated by a single atomic 16-bit store;
the static assertion's condition (`sizeof == 2`) holds, while the message
text's claimed size of 1 is stale. -/
theorem C7_token_flags_two_bytes :
    tokenFlagsSizeofBytes = 2
    ∧ tokenFlagsAssertCond
    ∧ 8 * tokenFlagsSizeofBytes = 16
    ∧ tokenFlagsSizeofBytes ≠ tokenFlagsAssertMsgSize :=
  ⟨rfl, rfl, rfl, fun hx => Nat.noConfusion (Nat.succ.inj hx)⟩

/-- C8: `value_of` and `mutable_value_of` assert — besides the size and
alignment checks — that the token's value pointer is non-null, so calling
them with the null value left by a failed lookup (which the model shows sets
the token value to null; an out-of-memory insert likewise returns a null
token value) violates an assertion; under the preconditions sizeof(T) equals
the trie's value size, value non-null and value aligned, the assertion branch
is unreachable and the load is returned. -/
theorem C8_value_of_assertions :
    (∀ (sT vs al : Nat) (load : Nat → Val),
        (value_of sT vs al none load).isOk = false
        ∧ (mutable_value_of sT vs al none load).isOk = false)
    ∧ (∀ (t : Trie) (k : Key), (t.lookup k).1 = false → (t.lookup k).2 = none)
    ∧ (∀ (sT vs al a : Nat) (load : Nat → Val),
        sT = vs → a % al = 0 →
        value_of sT vs al (some a) load = CheckedValue.ok (load a)
        ∧ mutable_value_of sT vs al (some a) load = CheckedValue.ok (load a)) := by
  refine ⟨?_, ?_, ?_⟩
  · intro sT vs al load
    constructor
    · unfold value_of
      split <;> rfl
    · unfold mutable_value_of
      split <;> rfl
  · intro t k h
    cases hf : t.root.find k with
    | some w =>
      simp only [Trie.lookup, hf] at h
      exact Bool.noConfusion h
    | none => simp only [Trie.lookup, hf]
  · intro sT vs al a load h1 h2
    subst h1
    constructor
    · show (if sT = sT then if a % al = 0 then CheckedValue.ok (load a)
          else CheckedValue.assertViolation AssertKind.misaligned
        else CheckedValue.assertViolation AssertKind.valsizeMismatch) = _
      rw [if_pos rfl, if_pos h2]
    · show (if sT = sT then if a % al = 0 then CheckedValue.ok (load a)
          else CheckedValue.assertViolation AssertKind.misaligned
        else CheckedValue.assertViolation AssertKind.valsizeMismatch) = _
      rw [if_pos rfl, if_pos h2]

/-- C8 witness: a null token value trips the assertions, a failed lookup
leaves a null token value, and the aligned well-sized access succeeds. -/
theorem C8_value_of_assertions_witness :
    ((value_of 4 4 8 none load0).isOk = false
      ∧ (mutable_value_of 4 4 8 none load0).isOk = false)
    ∧ ((Trie.create 4 8 ConcurrentLevel.OneWriteMultiRead).lookup [97]).2 = none
    ∧ value_of 4 4 8 (some 16) load0 = CheckedValue.ok (load0 16) :=
  ⟨C8_value_of_assertions.1 4 4 8 load0,
   C8_value_of_assertions.2.1 (Trie.create 4 8 ConcurrentLevel.OneWriteMultiRead) [97] rfl,
   (C8_value_of_assertions.2.2 4 4 8 16 load0 rfl rfl).1⟩

/-- C9: destroying any token smart pointer (reader, writer or iterator alias)
invokes `TokenDeleter`, whose call is `dispose()` — the deferred lazy-delete
route — and never a synchronous free: the induced protocol action is
`dispose`, distinct from `freeNow`, and applying it leaves the token's memory
allocated and the registry membership unchanged, merely marking the token
`DisposeWait`. -/
theorem C9_smart_ptr_dispose (kd : TokenKind) (tid : Nat) (s : PState) :
    destroyPtr kd tid = ProtoAction.dispose tid
    ∧ destroyPtr kd tid ≠ ProtoAction.freeNow tid
    ∧ (applyProtoAction s (destroyPtr kd tid)).allocTok = s.allocTok
    ∧ (applyProtoAction s (destroyPtr kd tid)).live.map Tok.tid = s.live.map Tok.tid := by
  refine ⟨rfl, by simp [destroyPtr, tokenDeleterCall], rfl, ?_⟩
  show (disposeState s tid).live.map Tok.tid = s.live.map Tok.tid
  simp only [disposeState]
  exact map_tid_dispose tid s.live

/-- C10: the factory's defaulted parameters — `create(valsize)` equals
`create(valsize, 512<<10, OneWriteMultiRead)`; `512<<10` is 524288 bytes
(512 KiB) and `OneWriteMultiRead` carries enum code 3. -/
theorem C10_create_defaults :
    (∀ vs : Nat, Trie.createDefault vs
        = Trie.create vs (512 <<< 10) ConcurrentLevel.OneWriteMultiRead)
    ∧ defaultMaxMem = 524288
    ∧ ConcurrentLevel.code ConcurrentLevel.OneWriteMultiRead = 3 :=
  ⟨fun _ => rfl, rfl, rfl⟩

end Terark
